import Mathlib

/-!
Verification of the Wallis product approximator `w_pi` from the notebook
exercises/Wallis-Pi-solution.ipynb.

The source function is

  def w_pi(n):
      num = 1
      den = 1
      for i in range(1,n+1):
          tmp = 4*i*i
          num *= tmp
          den *= tmp-1
      return 2.0*(num/den)

Python integers are unbounded, so `num` and `den` are embedded as `ℤ`.
The single final float division `num/den` is modelled as exact division
of rationals; everything before it is integer arithmetic in the source,
mirrored exactly here.
-/

namespace WallisPi

/-- The Python iteration space `range(1, n+1)` for an integer argument `n`:
the list `[1, 2, ..., n]`, empty whenever `n ≤ 0`. -/
def pyRange1 (n : ℤ) : List ℤ :=
  (List.range n.toNat).map (fun (j : ℕ) => (j : ℤ) + 1)

/-- The loop state of `w_pi`: the two integer accumulators `num` and `den`. -/
structure WState where
  num : ℤ
  den : ℤ
deriving DecidableEq

/-- One iteration of the loop body: `tmp = 4*i*i; num *= tmp; den *= tmp-1`. -/
def wStep (s : WState) (i : ℤ) : WState :=
  let tmp := 4 * i * i
  { num := s.num * tmp, den := s.den * (tmp - 1) }

/-- Running the whole loop of `w_pi` from the initial state `num = den = 1`. -/
def wLoop (n : ℤ) : WState :=
  (pyRange1 n).foldl wStep { num := 1, den := 1 }

/-- The loop state after only the first `k` iterations of the loop of `w_pi`. -/
def wIter (n : ℤ) (k : ℕ) : WState :=
  ((pyRange1 n).take k).foldl wStep { num := 1, den := 1 }

/-- The embedded `w_pi`: run the loop, then return `2.0 * (num / den)`,
with the single float division modelled as exact rational division. -/
def w_pi (n : ℤ) : ℚ :=
  2 * (((wLoop n).num : ℚ) / ((wLoop n).den : ℚ))

/-- Spec-side numerator: the exact integer product of `4*i*i = (2i)^2`
for `i` from `1` to `n`. -/
def Nprod (n : ℕ) : ℤ :=
  ∏ i ∈ Finset.Icc 1 n, 4 * (i : ℤ) * (i : ℤ)

/-- Spec-side denominator: the exact integer product of `4*i*i - 1`
for `i` from `1` to `n`. -/
def Dprod (n : ℕ) : ℤ :=
  ∏ i ∈ Finset.Icc 1 n, (4 * (i : ℤ) * (i : ℤ) - 1)

lemma Nprod_succ (k : ℕ) :
    Nprod (k + 1) = Nprod k * (4 * ((k : ℤ) + 1) * ((k : ℤ) + 1)) := by
  unfold Nprod
  rw [Finset.prod_Icc_succ_top (Nat.succ_le_succ (Nat.zero_le k))]
  push_cast
  ring

lemma Dprod_succ (k : ℕ) :
    Dprod (k + 1) = Dprod k * (4 * ((k : ℤ) + 1) * ((k : ℤ) + 1) - 1) := by
  unfold Dprod
  rw [Finset.prod_Icc_succ_top (Nat.succ_le_succ (Nat.zero_le k))]
  push_cast
  ring

lemma foldl_range_eq (k : ℕ) (s : WState) :
    ((List.range k).map (fun (j : ℕ) => (j : ℤ) + 1)).foldl wStep s =
      { num := s.num * Nprod k, den := s.den * Dprod k } := by
  induction k generalizing s with
  | zero => simp [Nprod, Dprod]
  | succ k ih =>
      rw [List.range_succ, List.map_append, List.foldl_append, ih]
      simp only [List.map_cons, List.map_nil, List.foldl_cons, List.foldl_nil]
      simp only [wStep, Nprod_succ, Dprod_succ, WState.mk.injEq]
      constructor <;> ring

lemma wLoop_eq (n : ℤ) :
    wLoop n = { num := Nprod n.toNat, den := Dprod n.toNat } := by
  unfold wLoop pyRange1
  rw [foldl_range_eq]
  simp

lemma w_pi_eq (n : ℤ) :
    w_pi n = 2 * ((Nprod n.toNat : ℚ) / (Dprod n.toNat : ℚ)) := by
  unfold w_pi
  rw [wLoop_eq]

lemma Nprod_pos (k : ℕ) : 0 < Nprod k := by
  refine Finset.prod_pos ?_
  intro i hi
  have h1 : 1 ≤ i := (Finset.mem_Icc.mp hi).1
  have : (1 : ℤ) ≤ (i : ℤ) := by exact_mod_cast h1
  nlinarith

lemma Dprod_pos (k : ℕ) : 0 < Dprod k := by
  refine Finset.prod_pos ?_
  intro i hi
  have h1 : 1 ≤ i := (Finset.mem_Icc.mp hi).1
  have : (1 : ℤ) ≤ (i : ℤ) := by exact_mod_cast h1
  nlinarith

lemma w_pi_nonpos (n : ℤ) (h : n ≤ 0) : w_pi n = 2 := by
  rw [w_pi_eq, Int.toNat_of_nonpos h]
  simp [Nprod, Dprod]

lemma wIter_eq (n : ℤ) (k : ℕ) (h : k ≤ n.toNat) :
    wIter n k = { num := Nprod k, den := Dprod k } := by
  unfold wIter pyRange1
  rw [← List.map_take, List.take_range, Nat.min_eq_left h, foldl_range_eq]
  simp

/-! ### Bridge to the Wallis product in the real numbers -/

lemma W_eq_prod_ratio (k : ℕ) :
    Real.Wallis.W k = (Nprod k : ℝ) / (Dprod k : ℝ) := by
  induction k with
  | zero => simp [Real.Wallis.W, Nprod, Dprod]
  | succ k ih =>
      have hD : (0:ℝ) < (Dprod k : ℝ) := by exact_mod_cast Dprod_pos k
      have h1 : (2 * (k:ℝ) + 1) ≠ 0 := by positivity
      have h3 : (2 * (k:ℝ) + 3) ≠ 0 := by positivity
      have ht : (4 * ((k:ℝ) + 1) * ((k:ℝ) + 1) - 1) ≠ 0 := by nlinarith [sq_nonneg (k:ℝ)]
      rw [Real.Wallis.W_succ, ih, Nprod_succ, Dprod_succ]
      push_cast
      field_simp
      ring

lemma W_lt_succ (k : ℕ) : Real.Wallis.W k < Real.Wallis.W (k + 1) := by
  have hW := Real.Wallis.W_pos k
  rw [Real.Wallis.W_succ]
  have h : (1:ℝ) < (2 * (k:ℝ) + 2) / (2 * (k:ℝ) + 1) * ((2 * (k:ℝ) + 2) / (2 * (k:ℝ) + 3)) := by
    rw [div_mul_div_comm, lt_div_iff₀ (by positivity)]
    nlinarith [sq_nonneg (k:ℝ)]
  nlinarith

lemma W_strictMono : StrictMono Real.Wallis.W :=
  strictMono_nat_of_lt_succ W_lt_succ

lemma W_lt_pi_div_two (k : ℕ) : Real.Wallis.W k < Real.pi / 2 :=
  lt_of_lt_of_le (W_lt_succ k) (Real.Wallis.W_le (k + 1))

lemma w_pi_cast (n : ℤ) : ((w_pi n : ℚ) : ℝ) = 2 * Real.Wallis.W n.toNat := by
  rw [w_pi_eq, W_eq_prod_ratio]
  push_cast
  ring

lemma two_lt_w_pi (n : ℤ) (h : 1 ≤ n) : 2 < w_pi n := by
  have hn : 0 < n.toNat := by omega
  have h1 : Real.Wallis.W 0 < Real.Wallis.W n.toNat := W_strictMono hn
  have hW0 : Real.Wallis.W 0 = 1 := by simp [Real.Wallis.W]
  have h2 : (2:ℝ) < ((w_pi n : ℚ) : ℝ) := by
    rw [w_pi_cast]
    nlinarith
  exact_mod_cast h2

lemma w_pi_lt_pi (n : ℤ) : ((w_pi n : ℚ) : ℝ) < Real.pi := by
  have h2 : Real.Wallis.W n.toNat < Real.pi / 2 := W_lt_pi_div_two _
  rw [w_pi_cast]
  nlinarith

lemma w_pi_lt_four (n : ℤ) : w_pi n < 4 := by
  have h2 : ((w_pi n : ℚ) : ℝ) < Real.pi := w_pi_lt_pi n
  have hpi : Real.pi < 4 := Real.pi_lt_four
  have h4 : ((w_pi n : ℚ) : ℝ) < 4 := by nlinarith
  exact_mod_cast h4

/-! ### Claims -/

/-- Claim C1: for every non-negative integer n, the loop of w_pi accumulates
exactly N = prod of 4*i*i and D = prod of (4*i*i - 1) for i in [1, n] as exact
integers, and w_pi n returns 2 * (N / D), the division being the single final
step (modelled as exact rational division). -/
theorem C1_exact_products (n : ℤ) (_h : 0 ≤ n) :
    (wLoop n).num = Nprod n.toNat ∧ (wLoop n).den = Dprod n.toNat ∧
      w_pi n = 2 * ((Nprod n.toNat : ℚ) / (Dprod n.toNat : ℚ)) := by
  refine ⟨?_, ?_, w_pi_eq n⟩ <;> rw [wLoop_eq]

/-- Witness for C1 at n = 3. -/
theorem C1_exact_products_witness :
    0 ≤ (3:ℤ) ∧ ((wLoop 3).num = Nprod (Int.toNat 3) ∧ (wLoop 3).den = Dprod (Int.toNat 3) ∧
      w_pi 3 = 2 * ((Nprod (Int.toNat 3) : ℚ) / (Dprod (Int.toNat 3) : ℚ))) :=
  ⟨by decide, C1_exact_products 3 (by decide)⟩

/-- Claim C2, counterexample: w_pi (-1) raises no error and returns the
numeric value 2, contradicting the claim that negative arguments fail with
an InvalidArgument error. -/
theorem C2_counterexample : w_pi (-1) = 2 := by
  simp [w_pi_eq, Nprod, Dprod]

/-- Claim C2 as amended: for every negative integer n, w_pi n raises no error
and returns the numeric value 2 (the loop range 1..n+1 is empty). -/
theorem C2_amended_negative_returns_two (n : ℤ) (h : n < 0) : w_pi n = 2 :=
  w_pi_nonpos n h.le

/-- Witness for the amended C2 at n = -1. -/
theorem C2_amended_witness : (-1:ℤ) < 0 ∧ w_pi (-1) = 2 :=
  ⟨by decide, C2_amended_negative_returns_two (-1) (by decide)⟩

/-- Claim C3: w_pi 0 returns exactly 2; the loop body never runs, leaving
numerator = denominator = 1. -/
theorem C3_zero_terms : (wLoop 0).num = 1 ∧ (wLoop 0).den = 1 ∧ w_pi 0 = 2 := by
  refine ⟨by decide, by decide, ?_⟩
  simp [w_pi_eq, Nprod, Dprod]

/-- Claim C4: after the loop for n = 1 the numerator accumulator is 4 and the
denominator accumulator is 3, and w_pi 1 = 8/3. -/
theorem C4_one_term : (wLoop 1).num = 4 ∧ (wLoop 1).den = 3 ∧ w_pi 1 = 8 / 3 := by
  refine ⟨by decide, by decide, ?_⟩
  norm_num [w_pi_eq, Nprod, Dprod]

/-- Claim C5, counterexample: at the valid input n = 0 the result is exactly
2, so it does not lie strictly between 2 and 4. -/
theorem C5_counterexample : ¬ (2 < w_pi 0 ∧ w_pi 0 < 4) := by
  intro hc
  have h0 : w_pi 0 = 2 := by simp [w_pi_eq, Nprod, Dprod]
  rw [h0] at hc
  exact lt_irrefl 2 hc.1

/-- Claim C5 as amended: w_pi 0 = 2 exactly, and for every n greater than or
equal to 1 the value w_pi n lies strictly between 2 and 4. -/
theorem C5_amended_strict_bounds (n : ℤ) (h : 1 ≤ n) : 2 < w_pi n ∧ w_pi n < 4 :=
  ⟨two_lt_w_pi n h, w_pi_lt_four n⟩

/-- Witness for the amended C5 at n = 1. -/
theorem C5_amended_witness : (1:ℤ) ≤ 1 ∧ (2 < w_pi 1 ∧ w_pi 1 < 4) :=
  ⟨by decide, C5_amended_strict_bounds 1 (by decide)⟩

/-- Claim C6: the exact partial products are strictly increasing in n, every
one lies strictly below pi, and the absolute error at n = 1000 is strictly
smaller than the absolute error at n = 10. -/
theorem C6_monotone_toward_pi :
    (∀ n : ℕ, ((w_pi (n : ℤ) : ℚ) : ℝ) < ((w_pi ((n : ℤ) + 1) : ℚ) : ℝ)) ∧
    (∀ n : ℕ, ((w_pi (n : ℤ) : ℚ) : ℝ) < Real.pi) ∧
    |((w_pi 1000 : ℚ) : ℝ) - Real.pi| < |((w_pi 10 : ℚ) : ℝ) - Real.pi| := by
  have key : ∀ n : ℕ, ((w_pi (n : ℤ) : ℚ) : ℝ) = 2 * Real.Wallis.W n := by
    intro n
    rw [w_pi_cast]
    norm_num
  refine ⟨?_, ?_, ?_⟩
  · intro n
    have e2 : ((w_pi ((n : ℤ) + 1) : ℚ) : ℝ) = 2 * Real.Wallis.W (n + 1) := by
      have hc : ((n : ℤ) + 1) = ((n + 1 : ℕ) : ℤ) := by push_cast; ring
      rw [hc, key]
    rw [key n, e2]
    have := W_lt_succ n
    linarith
  · intro n
    exact w_pi_lt_pi (n : ℤ)
  · have t10 : Int.toNat 10 = 10 := by decide
    have t1000 : Int.toNat 1000 = 1000 := by decide
    have e10 : ((w_pi 10 : ℚ) : ℝ) = 2 * Real.Wallis.W 10 := by
      rw [w_pi_cast, t10]
    have e1000 : ((w_pi 1000 : ℚ) : ℝ) = 2 * Real.Wallis.W 1000 := by
      rw [w_pi_cast, t1000]
    have h10 : 2 * Real.Wallis.W 10 < Real.pi := by
      have := W_lt_pi_div_two 10; linarith
    have h1000 : 2 * Real.Wallis.W 1000 < Real.pi := by
      have := W_lt_pi_div_two 1000; linarith
    have hlt : Real.Wallis.W 10 < Real.Wallis.W 1000 := W_strictMono (by norm_num)
    rw [e10, e1000, abs_of_neg (by linarith), abs_of_neg (by linarith)]
    linarith

/-- Claim C7: after k iterations of the loop, for every k between 0 and n, the
two accumulators hold exactly the integer products of 4*i*i and 4*i*i - 1 for
i in [1, k]; the integers are unbounded, so no step wraps or rounds, and the
only division is the final one in w_pi. -/
theorem C7_loop_invariant (n : ℤ) (k : ℕ) (h : (k : ℤ) ≤ n) :
    wIter n k = { num := Nprod k, den := Dprod k } := by
  refine wIter_eq n k ?_
  omega

/-- Witness for C7 at n = 5, k = 3. -/
theorem C7_loop_invariant_witness :
    ((3 : ℕ) : ℤ) ≤ 5 ∧ wIter 5 3 = { num := Nprod 3, den := Dprod 3 } :=
  ⟨by decide, C7_loop_invariant 5 3 (by decide)⟩

/-- Claim C8: w_pi is deterministic; its embedding is a pure function of the
argument alone (the source touches no external state), so two calls with equal
arguments return identical results and identical final loop states. -/
theorem C8_deterministic (n m : ℤ) (h : n = m) :
    w_pi n = w_pi m ∧ wLoop n = wLoop m := by
  subst h
  exact ⟨rfl, rfl⟩

/-- Witness for C8 at n = m = 7. -/
theorem C8_deterministic_witness :
    (7:ℤ) = 7 ∧ (w_pi 7 = w_pi 7 ∧ wLoop 7 = wLoop 7) :=
  ⟨rfl, C8_deterministic 7 7 rfl⟩

/-- Claim C9: for every negative integer n the loop range is empty, so w_pi n
raises no error and returns exactly 2, the same value as w_pi 0. -/
theorem C9_negative_silently_clamped (n : ℤ) (h : n < 0) :
    w_pi n = 2 ∧ w_pi n = w_pi 0 := by
  have h1 : w_pi n = 2 := w_pi_nonpos n h.le
  have h0 : w_pi 0 = 2 := w_pi_nonpos 0 le_rfl
  exact ⟨h1, by rw [h1, h0]⟩

/-- Witness for C9 at n = -1. -/
theorem C9_negative_witness :
    (-1:ℤ) < 0 ∧ (w_pi (-1) = 2 ∧ w_pi (-1) = w_pi 0) :=
  ⟨by decide, C9_negative_silently_clamped (-1) (by decide)⟩

/-- Claim C10: for every integer n the denominator accumulator after the loop
is at least 1 (each factor 4*i*i - 1 is at least 3 for i at least 1), so the
final division in w_pi never divides by zero. -/
theorem C10_denominator_never_zero (n : ℤ) :
    1 ≤ (wLoop n).den ∧ ((wLoop n).den : ℚ) ≠ 0 := by
  have hpos : 0 < (wLoop n).den := by
    rw [wLoop_eq]
    exact Dprod_pos n.toNat
  constructor
  · omega
  · intro hzero
    have : (wLoop n).den = 0 := by exact_mod_cast hzero
    omega

end WallisPi
